import Mathlib

/-
Verification of the classification engine of `organize.py` (markdown vault
organizer).  The Python source is shallowly embedded: strings are Lean
`String`s, Python dicts that are only read in insertion order become
association lists, and the single-character `str.replace` / `str.lower` /
`str.strip` operations become character-wise list maps.  Python's `set`
has no specified iteration order; wherever the source converts a set to a
list (`list(tags_lower)`) we use a first-insertion enumeration
(`dedupKeepFirst`) and, for claims that depend on that order, we reason
about arbitrary enumerations explicitly.
-/

namespace Organize

/-! ### Character-level primitives

`str.lower` is modelled on ASCII letters (all configured labels are
ASCII), `str.replace('_',' ')` and `str.replace(' ','_')` are
character-wise because the patterns are single characters, and
`str.strip()` removes the six ASCII whitespace characters Python strips. -/

/-- ASCII lowercasing of one character, as Python `str.lower` acts on ASCII. -/
def lowerChar (c : Char) : Char :=
  if 65 ≤ c.toNat ∧ c.toNat ≤ 90 then Char.ofNat (c.toNat + 32) else c

/-- One character of `replace('_', ' ')`. -/
def u2sChar (c : Char) : Char := if c = '_' then ' ' else c

/-- One character of `replace(' ', '_')`. -/
def s2uChar (c : Char) : Char := if c = ' ' then '_' else c

/-- Whitespace stripped by Python `str.strip()` (ASCII part). -/
def isPySpace (c : Char) : Bool :=
  c.toNat == 32 || c.toNat == 9 || c.toNat == 10 ||
  c.toNat == 11 || c.toNat == 12 || c.toNat == 13

/-- Strip leading and trailing whitespace from a character list. -/
def stripL (l : List Char) : List Char :=
  ((l.dropWhile isPySpace).reverse.dropWhile isPySpace).reverse

/-- Python `s.lower()` (ASCII). -/
def lowerPy (s : String) : String := ⟨s.data.map lowerChar⟩

/-- Python `s.replace('_', ' ')`. -/
def u2s (s : String) : String := ⟨s.data.map u2sChar⟩

/-- Python `s.replace(' ', '_')`. -/
def s2u (s : String) : String := ⟨s.data.map s2uChar⟩

/-- Python `s.strip()`. -/
def stripPy (s : String) : String := ⟨stripL s.data⟩

/-- Python `tag.lower().replace('_', ' ').strip()`, the normalization used
inside `consolidate_tags`. -/
def normTag (t : String) : String := stripPy (u2s (lowerPy t))

/-! ### Configuration tables (module constants of `organize.py`) -/

/-- `CATEGORY_RULES`, in declaration order. -/
def CATEGORY_RULES : List (String × String) :=
  [("characters", "1_People"),
   ("locations", "2_Locations"),
   ("factions", "3_Factions"),
   ("items", "4_Items"),
   ("magic", "5_Magic"),
   ("lore", "6_Lore"),
   ("races", "7_Races"),
   ("creatures", "8_Beastiary"),
   ("dragons", "1_People"),
   ("elves", "7_Races"),
   ("events", "6_Lore")]

/-- `INFBOX_TO_CATEGORY_KEY`. -/
def INFBOX_TO_CATEGORY_KEY : List (String × String) :=
  [("character", "characters"),
   ("location", "locations"),
   ("faction", "factions"),
   ("item", "items")]

/-- `DEFAULT_FOLDER`. -/
def DEFAULT_FOLDER : String := "9_Miscellaneous"

/-- `SUBCATEGORY_RULES`, in declaration order. -/
def SUBCATEGORY_RULES : List (String × List (String × String)) :=
  [("2_Locations",
    [("cities", "Cities"),
     ("towns", "Towns"),
     ("inns", "Establishments"),
     ("brothels", "Establishments"),
     ("fighting pits", "Establishments"),
     ("nations", "Nations"),
     ("wilderness", "Wilderness"),
     ("forests", "Wilderness"),
     ("mountains", "Wilderness"),
     ("seas", "Wilderness"),
     ("ruins", "Ruins"),
     ("continents", "Continents"),
     ("roads", "Roads"),
     ("fortifications", "Fortifications")]),
   ("3_Factions",
    [("nobility", "Nobility")]),
   ("4_Items",
    [("weapons", "Weapons"),
     ("armor", "Armor"),
     ("minerals", "Minerals"),
     ("flora", "Flora")]),
   ("6_Lore",
    [("history", "History"),
     ("mythology", "Mythology"),
     ("languages", "Languages"),
     ("religion", "Religion"),
     ("conflicts", "Conflicts"),
     ("events", "Events"),
     ("holidays", "Holidays")])]

/-- `TAG_CONSOLIDATION`. -/
def TAG_CONSOLIDATION : List (String × String) :=
  [("forts", "fortifications"),
   ("castles", "fortifications"),
   ("institutions", "factions"),
   ("organisations", "factions"),
   ("military units", "factions"),
   ("mercenary bands", "factions"),
   ("noble houses", "nobility"),
   ("notable families", "factions"),
   ("settlement", "towns"),
   ("towns_and_villages", "towns"),
   ("towns and villages", "towns"),
   ("mountain ranges", "mountains"),
   ("mountain_ranges", "mountains"),
   ("territorial_regions", "nations"),
   ("territorial regions", "nations"),
   ("wars", "conflicts"),
   ("battles", "conflicts")]

/-! ### `consolidate_tags` -/

/-- Lexicographic comparison of character lists by code point, Python's
string ordering. -/
def charListLe : List Char → List Char → Bool
  | [], _ => true
  | _ :: _, [] => false
  | a :: as, b :: bs =>
    if a.toNat < b.toNat then true
    else if b.toNat < a.toNat then false
    else charListLe as bs

/-- Python `a <= b` on strings (code-point lexicographic). -/
def pyStrLe (a b : String) : Bool := charListLe a.data b.data

/-- Insert a string into a sorted list, keeping it sorted. -/
def insertLe (x : String) : List String → List String
  | [] => [x]
  | y :: ys => if pyStrLe x y then x :: y :: ys else y :: insertLe x ys

/-- Python `sorted` on strings: some sorting algorithm producing the
ascending reordering (which is unique for the orders at hand). -/
def pySort (l : List String) : List String := l.foldr insertLe []

/-- `TAG_CONSOLIDATION.get(t, t)`. -/
def replTag (t : String) : String := (TAG_CONSOLIDATION.lookup t).getD t

/-- The `restore_formatting` closure inside `consolidate_tags`: scan the
original tag list for a tag whose lowered, underscore-to-space form equals
`t`; on a hit return that original lowered, otherwise turn spaces into
underscores. -/
def restore_formatting (tags : List String) (t : String) : String :=
  match tags.find? (fun ot => u2s (lowerPy ot) == t) with
  | some ot => lowerPy ot
  | none => s2u t

/-- The set `normalized_input_tags` of `consolidate_tags`, as a
duplicate-free list. -/
def normalizedOf (tags : List String) : List String := (tags.map normTag).dedup

/-- The set `consolidated` of `consolidate_tags` after the loop. -/
def consolidatedOf (tags : List String) : List String :=
  ((normalizedOf tags).map replTag).dedup

/-- The set `replacements` of `consolidate_tags` after the loop: the
normalized input tags that the synonym table changed. -/
def replacementsOf (tags : List String) : List String :=
  (normalizedOf tags).filter (fun t => !(replTag t == t))

/-- The list `final_tags` of `consolidate_tags`. -/
def finalOf (tags : List String) : List String :=
  (consolidatedOf tags).filter (fun t => !((replacementsOf tags).contains t))

/-- `consolidate_tags`: normalize the input tags into a set, apply the
synonym table, drop every tag that was a replacement source, restore
formatting and return the sorted list.  The Python sets are modelled as
deduplicated lists; since the output is sorted, the result does not
depend on the enumeration. -/
def consolidate_tags (tags : List String) : List String :=
  pySort ((finalOf tags).map (restore_formatting tags))

/-- Being normalized: a fixed point of the tag normalization. -/
def NormalTag (t : String) : Prop := normTag t = t

instance (t : String) : Decidable (NormalTag t) :=
  inferInstanceAs (Decidable (normTag t = t))

/-- The sort order used by `pySort`, as a relation. -/
def rLe (a b : String) : Prop := pyStrLe a b = true

instance : DecidableRel rLe :=
  fun a b => inferInstanceAs (Decidable (pyStrLe a b = true))

/-! ### `add_parent_tags_for_subcategories` -/

/-- Assignment `d[k] = v` into a Python dict modelled as an association
list: overwrite in place if the key exists, else append. -/
def dictInsert (d : List (String × String)) (k v : String) : List (String × String) :=
  if d.any (fun p => p.1 == k) then
    d.map (fun p => if p.1 == k then (k, v) else p)
  else d ++ [(k, v)]

/-- The `subcat_to_parent` dict built at the top of
`add_parent_tags_for_subcategories`: for each parent folder the category
keys mapping to it are computed, and every subcategory tag is assigned
each of them in turn (so for `6_Lore`, whose keys are `lore` and
`events`, the later assignment `events` wins). -/
def subcatToParent : List (String × String) :=
  SUBCATEGORY_RULES.foldl
    (fun d pf =>
      let parent_tags := (CATEGORY_RULES.filter (fun kv => kv.2 == pf.1)).map Prod.fst
      pf.2.foldl
        (fun d2 st => parent_tags.foldl (fun d3 pt => dictInsert d3 (lowerPy st.1) (lowerPy pt)) d2)
        d)
    []

/-- One step of the first-insertion set enumeration. -/
def dkStep (acc : List String) (x : String) : List String :=
  if acc.contains x then acc else acc ++ [x]

/-- First-insertion enumeration of a Python set built from a list. -/
def dedupKeepFirst (l : List String) : List String :=
  l.foldl dkStep []

/-- One iteration of the parent-adding loop: look the tag up in
`subcat_to_parent` and add the parent when it is missing, recording in the
flag that something was added. -/
def apStep (acc : List String × Bool) (t : String) : List String × Bool :=
  match subcatToParent.lookup t with
  | some p => if acc.1.contains p then acc else (acc.1 ++ [p], true)
  | none => acc

/-- `add_parent_tags_for_subcategories`: lowercase the tags into a set,
then for each tag of (a copy of) that set add its missing parent tag.
Returns the augmented enumeration and the `added_tags` flag. -/
def add_parent_tags_for_subcategories (tags : List String) : List String × Bool :=
  let base := dedupKeepFirst (tags.map lowerPy)
  base.foldl apStep (base, false)

/-! ### `classify_file` -/

/-- Python `x or default` for an optional string (`None` and `""` are falsy). -/
def pyOr (o : Option String) (d : String) : String :=
  match o with
  | some s => if s.isEmpty then d else s
  | none => d

/-- The main-folder loop: first category key (in declaration order) whose
lowered form is among the tags. -/
def firstCatIn (tags : List String) : Option String :=
  (CATEGORY_RULES.find? (fun kv => tags.contains (lowerPy kv.1))).map (fun kv => kv.2)

/-- The subfolder loop: the value for the first tag (in list order) that
is a key of the subcategory dict of the main folder. -/
def pickSub (subcats : List (String × String)) (tags : List String) : Option String :=
  match tags.find? (fun t => (subcats.lookup t).isSome) with
  | some t => subcats.lookup t
  | none => none

/-- `classify_file`, as a function of the `infobox` string (absent
modelled as `""`) and the tag list from the note's frontmatter.  Returns
`(main_folder, subfolder, tags)`. -/
def classify_file (infobox : String) (tags0 : List String) : String × Option String × List String :=
  let infobox_key := (INFBOX_TO_CATEGORY_KEY.lookup (stripPy (lowerPy infobox))).getD ""
  let tags1 := tags0.map lowerPy
  let tags2 := consolidate_tags tags1
  let tags3 :=
    if !infobox_key.isEmpty && !(tags2.contains infobox_key) then tags2 ++ [infobox_key]
    else tags2
  let tags4 := (add_parent_tags_for_subcategories tags3).1
  let main1 : Option String :=
    if infobox_key.isEmpty then none else CATEGORY_RULES.lookup infobox_key
  let main2 : Option String :=
    match main1 with
    | some f => if f.isEmpty then firstCatIn tags4 else some f
    | none => firstCatIn tags4
  let main_folder := pyOr main2 DEFAULT_FOLDER
  let subcats := (SUBCATEGORY_RULES.lookup main_folder).getD []
  (main_folder, pickSub subcats tags4, tags4)

/-- The order in which subcategory labels are declared in
`SUBCATEGORY_RULES`, flattened folder by folder. -/
def subcatDeclarationOrder : List String :=
  SUBCATEGORY_RULES.foldl (fun acc pf => acc ++ pf.2.map Prod.fst) []

/-! ### Generic lemmas about association lists and the set model -/

theorem lookup_mem {β : Type} :
    ∀ {l : List (String × β)} {a : String} {b : β}, l.lookup a = some b → (a, b) ∈ l := by
  intro l
  induction l with
  | nil => intro a b h; simp at h
  | cons p l ih =>
    intro a b h
    obtain ⟨k, v⟩ := p
    rw [List.lookup_cons] at h
    split at h
    · rename_i hbeq
      obtain rfl : a = k := eq_of_beq hbeq
      obtain rfl : v = b := by injection h
      exact List.mem_cons_self _ _
    · exact List.mem_cons_of_mem _ (ih h)

theorem mem_foldl_dkStep :
    ∀ (l acc : List String) (x : String), x ∈ l.foldl dkStep acc ↔ x ∈ acc ∨ x ∈ l := by
  intro l
  induction l with
  | nil => intro acc x; simp
  | cons a l ih =>
    intro acc x
    rw [List.foldl_cons, ih]
    unfold dkStep
    by_cases h : acc.contains a
    · rw [if_pos h]
      have ha : a ∈ acc := by simpa using h
      constructor
      · rintro (hx | hx)
        · exact Or.inl hx
        · exact Or.inr (List.mem_cons_of_mem _ hx)
      · rintro (hx | hx)
        · exact Or.inl hx
        · rcases List.mem_cons.mp hx with rfl | hx
          · exact Or.inl ha
          · exact Or.inr hx
    · rw [if_neg h]
      simp only [List.mem_append, List.mem_cons, List.mem_singleton]
      tauto

theorem mem_dedupKeepFirst {l : List String} {x : String} :
    x ∈ dedupKeepFirst l ↔ x ∈ l := by
  unfold dedupKeepFirst
  rw [mem_foldl_dkStep]
  simp

theorem nodup_foldl_dkStep :
    ∀ (l acc : List String), acc.Nodup → (l.foldl dkStep acc).Nodup := by
  intro l
  induction l with
  | nil => intro acc h; simpa using h
  | cons a l ih =>
    intro acc h
    rw [List.foldl_cons]
    apply ih
    unfold dkStep
    by_cases hc : acc.contains a
    · rwa [if_pos hc]
    · rw [if_neg hc]
      rw [List.nodup_append]
      refine ⟨h, List.nodup_singleton a, ?_⟩
      intro x hx hx1
      rcases List.mem_singleton.mp hx1 with rfl
      exact hc (by simpa using hx)

theorem nodup_dedupKeepFirst (l : List String) : (dedupKeepFirst l).Nodup :=
  nodup_foldl_dkStep l [] List.nodup_nil

theorem foldl_dkStep_of_disjoint :
    ∀ (l acc : List String), l.Nodup → (∀ x ∈ acc, x ∉ l) → l.foldl dkStep acc = acc ++ l := by
  intro l
  induction l with
  | nil => intro acc _ _; simp
  | cons a l ih =>
    intro acc hnd hdisj
    rw [List.foldl_cons]
    have hac : ¬ acc.contains a := by
      intro hc
      exact hdisj a (by simpa using hc) (List.mem_cons_self _ _)
    have hstep : dkStep acc a = acc ++ [a] := by
      unfold dkStep
      rw [if_neg hac]
    have hdisj2 : ∀ x ∈ acc ++ [a], x ∉ l := by
      intro x hx hxl
      rcases List.mem_append.mp hx with hx | hx
      · exact hdisj x hx (List.mem_cons_of_mem _ hxl)
      · rcases List.mem_singleton.mp hx with rfl
        exact (List.nodup_cons.mp hnd).1 hxl
    rw [hstep, ih (acc ++ [a]) hnd.of_cons hdisj2]
    simp

theorem dedupKeepFirst_of_nodup {l : List String} (h : l.Nodup) : dedupKeepFirst l = l := by
  unfold dedupKeepFirst
  rw [foldl_dkStep_of_disjoint l [] h (by simp)]
  simp

/-! ### Character-level lemmas -/

theorem charToNat_ofNat {n : Nat} (h : n < 55296) : (Char.ofNat n).toNat = n := by
  rw [Char.ofNat, dif_pos (Or.inl h)]
  rfl

theorem lowerChar_toNat_of_upper {c : Char} (h1 : 65 ≤ c.toNat) (h2 : c.toNat ≤ 90) :
    (lowerChar c).toNat = c.toNat + 32 := by
  rw [lowerChar, if_pos ⟨h1, h2⟩, charToNat_ofNat (by omega)]

theorem lowerChar_of_not_upper {c : Char} (h : ¬(65 ≤ c.toNat ∧ c.toNat ≤ 90)) :
    lowerChar c = c :=
  if_neg h

theorem lowerChar_idem (c : Char) : lowerChar (lowerChar c) = lowerChar c := by
  by_cases h : 65 ≤ c.toNat ∧ c.toNat ≤ 90
  · have h1 : (lowerChar c).toNat = c.toNat + 32 := lowerChar_toNat_of_upper h.1 h.2
    exact lowerChar_of_not_upper (by omega)
  · rw [lowerChar_of_not_upper h, lowerChar_of_not_upper h]

theorem lowerPy_idem (s : String) : lowerPy (lowerPy s) = lowerPy s := by
  unfold lowerPy
  apply congrArg String.mk
  show List.map lowerChar (List.map lowerChar s.data) = List.map lowerChar s.data
  rw [List.map_map]
  exact List.map_congr_left fun c _ => lowerChar_idem c

theorem u2sChar_ne_underscore (c : Char) : u2sChar c ≠ '_' := by
  unfold u2sChar
  by_cases h : c = '_'
  · rw [if_pos h]
    decide
  · rwa [if_neg h]

theorem u2sChar_eq_self {c : Char} (h : c ≠ '_') : u2sChar c = c := if_neg h

theorem s2uChar_eq_self {c : Char} (h : c ≠ ' ') : s2uChar c = c := if_neg h

theorem lowerChar_ne_underscore {c : Char} (h : c ≠ '_') : lowerChar c ≠ '_' := by
  by_cases hu : 65 ≤ c.toNat ∧ c.toNat ≤ 90
  · intro habs
    have h1 : (lowerChar c).toNat = c.toNat + 32 := lowerChar_toNat_of_upper hu.1 hu.2
    have h2 : (lowerChar c).toNat = 95 := by rw [habs]; decide
    omega
  · rwa [lowerChar_of_not_upper hu]

theorem lowerChar_ne_space {c : Char} (h : c ≠ ' ') : lowerChar c ≠ ' ' := by
  by_cases hu : 65 ≤ c.toNat ∧ c.toNat ≤ 90
  · intro habs
    have h1 : (lowerChar c).toNat = c.toNat + 32 := lowerChar_toNat_of_upper hu.1 hu.2
    have h2 : (lowerChar c).toNat = 32 := by rw [habs]; decide
    omega
  · rwa [lowerChar_of_not_upper hu]

theorem lowerChar_u2sChar (c : Char) : lowerChar (u2sChar c) = u2sChar (lowerChar c) := by
  by_cases h : c = '_'
  · subst h
    decide
  · rw [u2sChar_eq_self h, u2sChar_eq_self (lowerChar_ne_underscore h)]

theorem lowerChar_s2uChar (c : Char) : lowerChar (s2uChar c) = s2uChar (lowerChar c) := by
  by_cases h : c = ' '
  · subst h
    decide
  · rw [s2uChar_eq_self h, s2uChar_eq_self (lowerChar_ne_space h)]

theorem u2sChar_s2uChar {c : Char} (h : c ≠ '_') : u2sChar (s2uChar c) = c := by
  by_cases hs : c = ' '
  · subst hs
    decide
  · rw [s2uChar_eq_self hs, u2sChar_eq_self h]

/-! ### Lemmas about stripping -/

theorem dropWhile_idem (p : Char → Bool) :
    ∀ l : List Char, List.dropWhile p (List.dropWhile p l) = List.dropWhile p l := by
  intro l
  induction l with
  | nil => rfl
  | cons a l ih =>
    rw [List.dropWhile_cons]
    by_cases h : p a = true
    · rw [if_pos h]
      exact ih
    · rw [if_neg h, List.dropWhile_cons, if_neg h]

theorem length_dropWhile_le (p : Char → Bool) (l : List Char) :
    (List.dropWhile p l).length ≤ l.length :=
  (List.dropWhile_sublist p).length_le

theorem dropWhile_eq_self_of_length {p : Char → Bool} :
    ∀ {l : List Char}, (List.dropWhile p l).length = l.length → List.dropWhile p l = l := by
  intro l
  induction l with
  | nil => intro _; rfl
  | cons a l ih =>
    intro h
    rw [List.dropWhile_cons] at h ⊢
    by_cases hp : p a = true
    · rw [if_pos hp] at h
      have := length_dropWhile_le p l
      simp at h
      omega
    · rw [if_neg hp]

theorem stripL_eq_self_of_length {l : List Char} (h : (stripL l).length = l.length) :
    stripL l = l := by
  have h1 : (List.dropWhile isPySpace l).length ≤ l.length := length_dropWhile_le _ _
  have h2 : (List.dropWhile isPySpace (List.dropWhile isPySpace l).reverse).length ≤
      (List.dropWhile isPySpace l).length := by
    have h3 := length_dropWhile_le isPySpace (List.dropWhile isPySpace l).reverse
    simpa using h3
  have hlen : (stripL l).length =
      (List.dropWhile isPySpace (List.dropWhile isPySpace l).reverse).length := by
    unfold stripL
    rw [List.length_reverse]
  have hA : List.dropWhile isPySpace l = l := dropWhile_eq_self_of_length (by omega)
  have hB : List.dropWhile isPySpace l.reverse = l.reverse := by
    apply dropWhile_eq_self_of_length
    rw [List.length_reverse]
    rw [hA] at hlen
    omega
  unfold stripL
  rw [hA, hB, List.reverse_reverse]

theorem dropWhile_suffix (p : Char → Bool) :
    ∀ l : List Char, ∃ t, l = t ++ List.dropWhile p l := by
  intro l
  induction l with
  | nil => exact ⟨[], rfl⟩
  | cons a l ih =>
    rw [List.dropWhile_cons]
    by_cases h : p a = true
    · rw [if_pos h]
      obtain ⟨t, ht⟩ := ih
      exact ⟨a :: t, by rw [List.cons_append, ← ht]⟩
    · rw [if_neg h]
      exact ⟨[], rfl⟩

theorem mem_of_mem_dropWhile {p : Char → Bool} {l : List Char} {x : Char}
    (hx : x ∈ List.dropWhile p l) : x ∈ l := by
  obtain ⟨t, ht⟩ := dropWhile_suffix p l
  rw [ht]
  exact List.mem_append.mpr (Or.inr hx)

theorem mem_of_mem_stripL {l : List Char} {x : Char} (hx : x ∈ stripL l) : x ∈ l := by
  unfold stripL at hx
  rw [List.mem_reverse] at hx
  have h1 := mem_of_mem_dropWhile hx
  rw [List.mem_reverse] at h1
  exact mem_of_mem_dropWhile h1

theorem dropWhile_eq_self_of_append {p : Char → Bool} {l r : List Char}
    (h : List.dropWhile p (l ++ r) = l ++ r) (hne : l ≠ []) :
    List.dropWhile p l = l := by
  cases l with
  | nil => exact absurd rfl hne
  | cons a l =>
    rw [List.cons_append, List.dropWhile_cons] at h
    by_cases hp : p a = true
    · rw [if_pos hp] at h
      have hlen := length_dropWhile_le p (l ++ r)
      rw [h] at hlen
      simp at hlen
    · rw [List.dropWhile_cons, if_neg hp]

theorem stripL_idem (l : List Char) : stripL (stripL l) = stripL l := by
  have hA : List.dropWhile isPySpace (List.dropWhile isPySpace l) =
      List.dropWhile isPySpace l := dropWhile_idem _ _
  have hrev : (stripL l).reverse =
      List.dropWhile isPySpace (List.dropWhile isPySpace l).reverse := by
    unfold stripL
    rw [List.reverse_reverse]
  have hhead : List.dropWhile isPySpace (stripL l) = stripL l := by
    obtain ⟨t, ht⟩ := dropWhile_suffix isPySpace (List.dropWhile isPySpace l).reverse
    by_cases hne : stripL l = []
    · rw [hne]
      rfl
    · have hpre : List.dropWhile isPySpace l = stripL l ++ t.reverse := by
        have := congrArg List.reverse ht
        rw [List.reverse_append] at this
        simp only [List.reverse_reverse] at this
        rw [this]
        unfold stripL
        rfl
      exact dropWhile_eq_self_of_append (by rw [← hpre]; exact hA) hne
  show (List.dropWhile isPySpace (List.dropWhile isPySpace (stripL l)).reverse).reverse = stripL l
  rw [hhead, hrev, dropWhile_idem]
  rfl

theorem map_eq_self {f : Char → Char} :
    ∀ {l : List Char}, List.map f l = l → ∀ c ∈ l, f c = c := by
  intro l
  induction l with
  | nil => intro _ c hc; exact absurd hc (List.not_mem_nil c)
  | cons a l ih =>
    intro h c hc
    rw [List.map_cons] at h
    injection h with h1 h2
    rcases List.mem_cons.mp hc with rfl | hc
    · exact h1
    · exact ih h2 c hc

/-! ### The theory of normalized tags -/

theorem normal_u2s_lower {t : String} (h : NormalTag t) : u2s (lowerPy t) = t := by
  have hd : stripL ((t.data.map lowerChar).map u2sChar) = t.data := congrArg String.data h
  have hlen : (stripL ((t.data.map lowerChar).map u2sChar)).length =
      ((t.data.map lowerChar).map u2sChar).length := by
    rw [hd]
    simp
  have hself := stripL_eq_self_of_length hlen
  rw [hself] at hd
  show String.mk ((t.data.map lowerChar).map u2sChar) = t
  rw [hd]

theorem normal_pointwise {t : String} (h : NormalTag t) :
    ∀ c ∈ t.data, u2sChar (lowerChar c) = c := by
  have h1 : (t.data.map lowerChar).map u2sChar = t.data :=
    congrArg String.data (normal_u2s_lower h)
  rw [List.map_map] at h1
  exact map_eq_self h1

theorem normal_chars {t : String} (h : NormalTag t) :
    ∀ c ∈ t.data, lowerChar c = c ∧ u2sChar c = c := by
  intro c hc
  have h2 := normal_pointwise h c hc
  by_cases hl : lowerChar c = '_'
  · rw [hl] at h2
    have hc2 : c = ' ' := by rw [← h2]; decide
    subst hc2
    exact absurd hl (by decide)
  · rw [u2sChar_eq_self hl] at h2
    refine ⟨h2, ?_⟩
    rw [← h2]
    exact u2sChar_eq_self hl

theorem lowerPy_eq_self_of {s : String} (h : ∀ c ∈ s.data, lowerChar c = c) :
    lowerPy s = s := by
  show String.mk (s.data.map lowerChar) = s
  have h1 : s.data.map lowerChar = s.data.map id := List.map_congr_left h
  rw [h1, List.map_id]

theorem u2s_eq_self_of {s : String} (h : ∀ c ∈ s.data, u2sChar c = c) :
    u2s s = s := by
  show String.mk (s.data.map u2sChar) = s
  have h1 : s.data.map u2sChar = s.data.map id := List.map_congr_left h
  rw [h1, List.map_id]

theorem normal_lower {t : String} (h : NormalTag t) : lowerPy t = t :=
  lowerPy_eq_self_of fun c hc => (normal_chars h c hc).1

theorem normal_u2s {t : String} (h : NormalTag t) : u2s t = t :=
  u2s_eq_self_of fun c hc => (normal_chars h c hc).2

theorem normal_strip {t : String} (h : NormalTag t) : stripPy t = t := by
  have h1 : stripPy (u2s (lowerPy t)) = t := h
  rwa [normal_u2s_lower h] at h1

theorem normTag_idem (t : String) : NormalTag (normTag t) := by
  have hch : ∀ c ∈ (normTag t).data, lowerChar c = c ∧ u2sChar c = c := by
    intro c hc
    have hc1 : c ∈ (t.data.map lowerChar).map u2sChar := mem_of_mem_stripL hc
    rw [List.map_map] at hc1
    obtain ⟨c0, _, rfl⟩ := List.mem_map.mp hc1
    constructor
    · show lowerChar (u2sChar (lowerChar c0)) = u2sChar (lowerChar c0)
      rw [lowerChar_u2sChar, lowerChar_idem]
    · exact u2sChar_eq_self (u2sChar_ne_underscore _)
  show stripPy (u2s (lowerPy (normTag t))) = normTag t
  rw [lowerPy_eq_self_of fun c hc => (hch c hc).1, u2s_eq_self_of fun c hc => (hch c hc).2]
  show String.mk (stripL (stripL ((t.data.map lowerChar).map u2sChar))) = normTag t
  rw [stripL_idem]
  rfl

theorem lower_s2u (t : String) : lowerPy (s2u t) = s2u (lowerPy t) := by
  show String.mk ((t.data.map s2uChar).map lowerChar) =
    String.mk ((t.data.map lowerChar).map s2uChar)
  rw [List.map_map, List.map_map]
  exact congrArg String.mk (List.map_congr_left fun c _ => lowerChar_s2uChar c)

theorem u2s_s2u_of_normal {t : String} (h : NormalTag t) : u2s (s2u t) = t := by
  have hpt : ∀ c ∈ t.data, u2sChar (s2uChar c) = c := by
    intro c hc
    have hu := (normal_chars h c hc).2
    have hne : c ≠ '_' := by
      intro habs
      subst habs
      exact absurd hu (by decide)
    exact u2sChar_s2uChar hne
  show String.mk ((t.data.map s2uChar).map u2sChar) = t
  rw [List.map_map]
  have h1 : t.data.map (u2sChar ∘ s2uChar) = t.data.map id :=
    List.map_congr_left fun c hc => hpt c hc
  rw [h1, List.map_id]

theorem u2s_lower_s2u {t : String} (h : NormalTag t) : u2s (lowerPy (s2u t)) = t := by
  rw [lower_s2u, normal_lower h, u2s_s2u_of_normal h]

theorem normTag_s2u {t : String} (h : NormalTag t) : normTag (s2u t) = t := by
  show stripPy (u2s (lowerPy (s2u t))) = t
  rw [u2s_lower_s2u h]
  exact normal_strip h

theorem normTag_lower_of_match {t ot : String} (h : NormalTag t)
    (hm : u2s (lowerPy ot) = t) : normTag (lowerPy ot) = t := by
  show stripPy (u2s (lowerPy (lowerPy ot))) = t
  rw [lowerPy_idem, hm]
  exact normal_strip h

/-- Normalizing the restored form of a normalized tag gives the tag
back. -/
theorem normTag_restore {tags : List String} {t : String} (h : NormalTag t) :
    normTag (restore_formatting tags t) = t := by
  unfold restore_formatting
  rcases hf : tags.find? (fun ot => u2s (lowerPy ot) == t) with _ | ot
  · exact normTag_s2u h
  · have hp0 := List.find?_some hf
    have hp : (u2s (lowerPy ot) == t) = true := hp0
    exact normTag_lower_of_match h (eq_of_beq hp)

/-- The restored form of a normalized tag matches the predicate used by
`restore_formatting` itself. -/
theorem u2s_lower_restore {tags : List String} {t : String} (h : NormalTag t) :
    u2s (lowerPy (restore_formatting tags t)) = t := by
  unfold restore_formatting
  rcases hf : tags.find? (fun ot => u2s (lowerPy ot) == t) with _ | ot
  · exact u2s_lower_s2u h
  · have hp0 := List.find?_some hf
    have hp : (u2s (lowerPy ot) == t) = true := hp0
    rw [lowerPy_idem]
    exact eq_of_beq hp

/-- The restored form of a normalized tag is already lowercase. -/
theorem lowerPy_restore {tags : List String} {t : String} (h : NormalTag t) :
    lowerPy (restore_formatting tags t) = restore_formatting tags t := by
  unfold restore_formatting
  rcases hf : tags.find? (fun ot => u2s (lowerPy ot) == t) with _ | ot
  · rw [lower_s2u, normal_lower h]
  · exact lowerPy_idem ot

/-! ### Lemmas about `add_parent_tags_for_subcategories` -/

theorem apStep_sub {acc : List String × Bool} {a x : String} (hx : x ∈ acc.1) :
    x ∈ (apStep acc a).1 := by
  unfold apStep
  split
  · split
    · exact hx
    · exact List.mem_append.mpr (Or.inl hx)
  · exact hx

theorem foldl_apStep_sub :
    ∀ (l : List String) (acc : List String × Bool) (x : String),
      x ∈ acc.1 → x ∈ (l.foldl apStep acc).1 := by
  intro l
  induction l with
  | nil => intro acc x hx; simpa using hx
  | cons a l ih =>
    intro acc x hx
    rw [List.foldl_cons]
    exact ih _ _ (apStep_sub hx)

theorem foldl_apStep_src :
    ∀ (l : List String) (acc : List String × Bool) (x : String),
      x ∈ (l.foldl apStep acc).1 →
      x ∈ acc.1 ∨ ∃ t ∈ l, subcatToParent.lookup t = some x := by
  intro l
  induction l with
  | nil => intro acc x hx; exact Or.inl (by simpa using hx)
  | cons a l ih =>
    intro acc x hx
    rw [List.foldl_cons] at hx
    rcases ih _ _ hx with hx1 | ⟨t, ht, hlk⟩
    · revert hx1
      unfold apStep
      rcases hsc : subcatToParent.lookup a with _ | p
      · exact fun hx1 => Or.inl hx1
      · simp only
        split
        · exact fun hx1 => Or.inl hx1
        · intro hx1
          rcases List.mem_append.mp hx1 with hx2 | hx2
          · exact Or.inl hx2
          · rcases List.mem_singleton.mp hx2 with rfl
            exact Or.inr ⟨a, List.mem_cons_self _ _, hsc⟩
    · exact Or.inr ⟨t, List.mem_cons_of_mem _ ht, hlk⟩

theorem foldl_apStep_parent :
    ∀ (l : List String) (acc : List String × Bool) (t p : String),
      t ∈ l → subcatToParent.lookup t = some p → p ∈ (l.foldl apStep acc).1 := by
  intro l
  induction l with
  | nil => intro acc t p ht; exact absurd ht (List.not_mem_nil t)
  | cons a l ih =>
    intro acc t p ht hlk
    rw [List.foldl_cons]
    rcases List.mem_cons.mp ht with rfl | ht
    · apply foldl_apStep_sub
      unfold apStep
      rw [hlk]
      simp only
      split
      · rename_i hc
        simpa using hc
      · exact List.mem_append.mpr (Or.inr (List.mem_singleton.mpr rfl))
    · exact ih _ _ _ ht hlk

theorem foldl_apStep_nodup :
    ∀ (l : List String) (acc : List String × Bool), acc.1.Nodup → (l.foldl apStep acc).1.Nodup := by
  intro l
  induction l with
  | nil => intro acc h; simpa using h
  | cons a l ih =>
    intro acc h
    rw [List.foldl_cons]
    apply ih
    unfold apStep
    rcases hsc : subcatToParent.lookup a with _ | p
    · exact h
    · show (if acc.1.contains p = true then acc else (acc.1 ++ [p], true)).1.Nodup
      by_cases hc : acc.1.contains p = true
      · rw [if_pos hc]
        exact h
      · rw [if_neg hc]
        show (acc.1 ++ [p]).Nodup
        rw [List.nodup_append]
        refine ⟨h, List.nodup_singleton p, ?_⟩
        intro x hx hx1
        rcases List.mem_singleton.mp hx1 with rfl
        exact hc (by simpa using hx)

theorem foldl_apStep_noop :
    ∀ (l : List String) (acc : List String × Bool),
      (∀ t ∈ l, ∀ p, subcatToParent.lookup t = some p → p ∈ acc.1) →
      l.foldl apStep acc = acc := by
  intro l
  induction l with
  | nil => intro acc _; rfl
  | cons a l ih =>
    intro acc h
    rw [List.foldl_cons]
    have hstep : apStep acc a = acc := by
      unfold apStep
      rcases hsc : subcatToParent.lookup a with _ | p
      · rfl
      · simp only
        rw [if_pos]
        simpa using h a (List.mem_cons_self _ _) p hsc
    rw [hstep]
    exact ih acc fun t ht p hp => h t (List.mem_cons_of_mem _ ht) p hp

/-- Concrete configuration fact: every parent tag stored in
`subcat_to_parent` either has no entry of its own or maps to itself. -/
theorem subcatToParent_self :
    ∀ pr ∈ subcatToParent,
      subcatToParent.lookup pr.2 = none ∨ subcatToParent.lookup pr.2 = some pr.2 := by
  decide

/-- Concrete configuration fact: parent tags are already lowercase. -/
theorem subcatToParent_lower : ∀ pr ∈ subcatToParent, lowerPy pr.2 = pr.2 := by
  decide

/-- The result of ancestor inference is closed under `subcat_to_parent`:
the parent of every member is itself a member. -/
theorem add_parent_closed {tags : List String} {t p : String}
    (ht : t ∈ (add_parent_tags_for_subcategories tags).1)
    (hlk : subcatToParent.lookup t = some p) :
    p ∈ (add_parent_tags_for_subcategories tags).1 := by
  unfold add_parent_tags_for_subcategories at ht ⊢
  rcases foldl_apStep_src _ _ _ ht with hbase | ⟨u, hu, hulk⟩
  · exact foldl_apStep_parent _ _ _ _ hbase hlk
  · rcases subcatToParent_self _ (lookup_mem hulk) with hnone | hself
    · rw [hnone] at hlk
      cases hlk
    · rw [hself] at hlk
      obtain rfl : t = p := by injection hlk
      exact ht

/-- Every member of the result of ancestor inference is fixed by
lowercasing. -/
theorem add_parent_lower {tags : List String} {x : String}
    (hx : x ∈ (add_parent_tags_for_subcategories tags).1) : lowerPy x = x := by
  unfold add_parent_tags_for_subcategories at hx
  rcases foldl_apStep_src _ _ _ hx with hbase | ⟨u, _, hulk⟩
  · rcases List.mem_map.mp (mem_dedupKeepFirst.mp hbase) with ⟨y, _, rfl⟩
    exact lowerPy_idem y
  · exact subcatToParent_lower _ (lookup_mem hulk)

/-- The result of ancestor inference has no duplicates. -/
theorem add_parent_nodup (tags : List String) :
    (add_parent_tags_for_subcategories tags).1.Nodup := by
  unfold add_parent_tags_for_subcategories
  exact foldl_apStep_nodup _ _ (nodup_dedupKeepFirst _)

/-- Membership is preserved from the input of ancestor inference to its
output, for tags that are already lowercase. -/
theorem mem_add_parent_of_mem {x : String} {l : List String} (hx : x ∈ l)
    (hlow : lowerPy x = x) : x ∈ (add_parent_tags_for_subcategories l).1 := by
  unfold add_parent_tags_for_subcategories
  apply foldl_apStep_sub
  exact mem_dedupKeepFirst.mpr (List.mem_map.mpr ⟨x, hx, hlow⟩)

/-- Ancestor inference is the identity (with flag `false`) on any
duplicate-free, lowercase, parent-closed list. -/
theorem add_parent_of_closed {R : List String} (hnd : R.Nodup)
    (hlow : ∀ x ∈ R, lowerPy x = x)
    (hcl : ∀ t ∈ R, ∀ p, subcatToParent.lookup t = some p → p ∈ R) :
    add_parent_tags_for_subcategories R = (R, false) := by
  show List.foldl apStep (dedupKeepFirst (R.map lowerPy), false)
      (dedupKeepFirst (R.map lowerPy)) = (R, false)
  have hmap : R.map lowerPy = R := by
    have h1 : R.map lowerPy = R.map id := List.map_congr_left fun x hx => hlow x hx
    rw [h1, List.map_id]
  rw [hmap, dedupKeepFirst_of_nodup hnd]
  exact foldl_apStep_noop R (R, false) hcl

/-! ### The sorting order of `pySort` -/

theorem charListLe_total : ∀ as bs : List Char,
    charListLe as bs = true ∨ charListLe bs as = true := by
  intro as
  induction as with
  | nil => intro bs; exact Or.inl rfl
  | cons a as ih =>
    intro bs
    cases bs with
    | nil => exact Or.inr rfl
    | cons b bs =>
      simp only [charListLe]
      rcases Nat.lt_trichotomy a.toNat b.toNat with h | h | h
      · left
        rw [if_pos h]
      · have h1 : ¬ a.toNat < b.toNat := by omega
        have h2 : ¬ b.toNat < a.toNat := by omega
        rcases ih bs with hle | hle
        · left
          rw [if_neg h1, if_neg h2]
          exact hle
        · right
          rw [if_neg h2, if_neg h1]
          exact hle
      · right
        rw [if_pos h]

theorem charListLe_trans : ∀ as bs cs : List Char,
    charListLe as bs = true → charListLe bs cs = true → charListLe as cs = true := by
  intro as
  induction as with
  | nil => intro bs cs _ _; rfl
  | cons a as ih =>
    intro bs cs h1 h2
    cases bs with
    | nil => simp [charListLe] at h1
    | cons b bs =>
      cases cs with
      | nil => simp [charListLe] at h2
      | cons c cs =>
        simp only [charListLe] at h1 h2 ⊢
        by_cases hab : a.toNat < b.toNat
        · by_cases hbc : b.toNat < c.toNat
          · rw [if_pos (by omega : a.toNat < c.toNat)]
          · by_cases hcb : c.toNat < b.toNat
            · rw [if_neg hbc, if_pos hcb] at h2
              exact absurd h2 (by decide)
            · rw [if_pos (by omega : a.toNat < c.toNat)]
        · by_cases hba : b.toNat < a.toNat
          · rw [if_neg hab, if_pos hba] at h1
            exact absurd h1 (by decide)
          · rw [if_neg hab, if_neg hba] at h1
            by_cases hbc : b.toNat < c.toNat
            · rw [if_pos (by omega : a.toNat < c.toNat)]
            · by_cases hcb : c.toNat < b.toNat
              · rw [if_neg hbc, if_pos hcb] at h2
                exact absurd h2 (by decide)
              · rw [if_neg hbc, if_neg hcb] at h2
                rw [if_neg (by omega : ¬ a.toNat < c.toNat),
                  if_neg (by omega : ¬ c.toNat < a.toNat)]
                exact ih bs cs h1 h2

theorem charEq_of_toNat_eq {a b : Char} (h : a.toNat = b.toNat) : a = b := by
  have h1 : Char.ofNat a.toNat = Char.ofNat b.toNat := congrArg Char.ofNat h
  rwa [Char.ofNat_toNat, Char.ofNat_toNat] at h1

theorem charListLe_antisymm : ∀ as bs : List Char,
    charListLe as bs = true → charListLe bs as = true → as = bs := by
  intro as
  induction as with
  | nil =>
    intro bs _ h2
    cases bs with
    | nil => rfl
    | cons b bs => simp [charListLe] at h2
  | cons a as ih =>
    intro bs h1 h2
    cases bs with
    | nil => simp [charListLe] at h1
    | cons b bs =>
      simp only [charListLe] at h1 h2
      by_cases hab : a.toNat < b.toNat
      · rw [if_neg (by omega : ¬ b.toNat < a.toNat), if_pos hab] at h2
        exact absurd h2 (by decide)
      · by_cases hba : b.toNat < a.toNat
        · rw [if_neg hab, if_pos hba] at h1
          exact absurd h1 (by decide)
        · rw [if_neg hab, if_neg hba] at h1
          rw [if_neg hba, if_neg hab] at h2
          have hc : a = b := charEq_of_toNat_eq (by omega)
          rw [hc, ih bs h1 h2]

theorem rLe_total (a b : String) : rLe a b ∨ rLe b a := charListLe_total a.data b.data

theorem rLe_trans {a b c : String} (h1 : rLe a b) (h2 : rLe b c) : rLe a c :=
  charListLe_trans a.data b.data c.data h1 h2

theorem rLe_antisymm {a b : String} (h1 : rLe a b) (h2 : rLe b a) : a = b := by
  have h3 := charListLe_antisymm a.data b.data h1 h2
  exact congrArg String.mk h3

theorem insertLe_eq (a : String) :
    ∀ L : List String, insertLe a L = List.orderedInsert rLe a L := by
  intro L
  induction L with
  | nil => rfl
  | cons b L ih =>
    show (if rLe a b then a :: b :: L else b :: insertLe a L) =
      (if rLe a b then a :: b :: L else b :: List.orderedInsert rLe a L)
    by_cases h : rLe a b
    · rw [if_pos h, if_pos h]
    · rw [if_neg h, if_neg h, ih]

theorem pySort_eq (l : List String) : pySort l = List.insertionSort rLe l := by
  induction l with
  | nil => rfl
  | cons a l ih =>
    show insertLe a (pySort l) = List.orderedInsert rLe a (List.insertionSort rLe l)
    rw [ih, insertLe_eq]

theorem pySort_perm (l : List String) : List.Perm (pySort l) l := by
  rw [pySort_eq]
  exact List.perm_insertionSort rLe l

theorem pySort_sorted (l : List String) : List.Sorted rLe (pySort l) := by
  haveI : IsTotal String rLe := ⟨rLe_total⟩
  haveI : IsTrans String rLe := ⟨fun _ _ _ => rLe_trans⟩
  rw [pySort_eq]
  exact List.sorted_insertionSort rLe l

theorem pySort_eq_of_perm {l1 l2 : List String} (h : List.Perm l1 l2) :
    pySort l1 = pySort l2 := by
  haveI : IsAntisymm String rLe := ⟨fun _ _ => rLe_antisymm⟩
  exact List.eq_of_perm_of_sorted (((pySort_perm l1).trans h).trans (pySort_perm l2).symm)
    (pySort_sorted l1) (pySort_sorted l2)

/-! ### Lemmas about `consolidate_tags` -/

/-- Concrete configuration fact: consolidation targets are normalized. -/
theorem targets_normal : ∀ pr ∈ TAG_CONSOLIDATION, NormalTag pr.2 := by decide

/-- Concrete configuration fact: no consolidation target is itself a
consolidation source (the synonym table has no chains). -/
theorem targets_not_source :
    ∀ pr ∈ TAG_CONSOLIDATION, TAG_CONSOLIDATION.lookup pr.2 = none := by decide

theorem mem_normalizedOf_normal {tags : List String} {t : String}
    (h : t ∈ normalizedOf tags) : NormalTag t := by
  have h0 : t ∈ (tags.map normTag).dedup := h
  obtain ⟨y, _, rfl⟩ := List.mem_map.mp (List.mem_dedup.mp h0)
  exact normTag_idem y

theorem mem_finalOf {tags : List String} {t : String} (h : t ∈ finalOf tags) :
    NormalTag t ∧ replTag t = t := by
  have h0 : t ∈ (consolidatedOf tags).filter
      (fun t => !((replacementsOf tags).contains t)) := h
  have h1 := List.mem_filter.mp h0
  have h2 : t ∈ ((normalizedOf tags).map replTag).dedup := h1.1
  obtain ⟨s, hs, rfl⟩ := List.mem_map.mp (List.mem_dedup.mp h2)
  rcases hl : TAG_CONSOLIDATION.lookup s with _ | r
  · have he : replTag s = s := by
      unfold replTag
      rw [hl]
      rfl
    rw [he]
    exact ⟨mem_normalizedOf_normal hs, he⟩
  · have he : replTag s = r := by
      unfold replTag
      rw [hl]
      rfl
    rw [he]
    have hmem := lookup_mem hl
    refine ⟨targets_normal _ hmem, ?_⟩
    unfold replTag
    rw [targets_not_source _ hmem]
    rfl

theorem not_mem_replacements_of_finalOf {tags : List String} {t : String}
    (h : t ∈ finalOf tags) : t ∉ replacementsOf tags := by
  have h0 : t ∈ (consolidatedOf tags).filter
      (fun t => !((replacementsOf tags).contains t)) := h
  have h1 := (List.mem_filter.mp h0).2
  rw [Bool.not_eq_true'] at h1
  intro habs
  simp [habs] at h1

theorem mem_replacementsOf {tags : List String} {s : String}
    (hs : s ∈ normalizedOf tags) (hr : replTag s ≠ s) : s ∈ replacementsOf tags := by
  show s ∈ (normalizedOf tags).filter (fun t => !(replTag t == t))
  apply List.mem_filter.mpr
  refine ⟨hs, ?_⟩
  simp [hr]

theorem restore_eq_of_find_some {tags : List String} {t ot : String}
    (h : tags.find? (fun o => u2s (lowerPy o) == t) = some ot) :
    restore_formatting tags t = lowerPy ot := by
  unfold restore_formatting
  rw [h]

theorem filter_contains_nil (l : List String) :
    l.filter (fun t => !(([] : List String).contains t)) = l := by
  induction l with
  | nil => rfl
  | cons a l ih =>
    rw [List.filter_cons_of_pos (by rfl), ih]

/-! ### Claim theorems -/

/-- C1: evaluating `classify_file` on the label set {"ruins","cities"}
(as the failing input of the claim).  Under the canonical enumeration the
code returns the bare subfolder "Cities" — a single path segment — and in
fact no subcategory rule of the configuration maps to a multi-segment
path, so no "deeper, three-segment path" for "cities" exists and no
depth comparison can take place, contrary to the claim (and to the
repository's own tests, which expect "Locations/Settlements/Cities"). -/
theorem claim1_eval :
    classify_file "" ["ruins", "cities"] =
      ("2_Locations", some "Cities", ["cities", "ruins", "locations"]) ∧
    ∀ pf ∈ SUBCATEGORY_RULES, ∀ ts ∈ pf.2, ts.2.data.contains '/' = false := by
  decide

/-- C2: evaluating `classify_file` on the label set {"ruins","nations"}.
The code returns the subfolder "Nations" (the first matching tag in the
model's enumeration), not "Ruins"; moreover in the configuration under
`src/` the label "nations" is declared before "ruins", so the claim's
premise that "ruins" comes first in declaration order is false, and no
declaration-order tie-break exists in `classify_file`. -/
theorem claim2_eval :
    classify_file "" ["ruins", "nations"] =
      ("2_Locations", some "Nations", ["nations", "ruins", "locations"]) ∧
    subcatDeclarationOrder.indexOf "nations" < subcatDeclarationOrder.indexOf "ruins" := by
  decide

/-- C3: the subfolder component of `classify_file` is computed by
`pickSub` from the enumeration of an unordered Python set, and two
enumerations of the same label set {"cities","ruins","locations"} yield
different subfolders ("Cities" vs "Ruins"), so the result is not a
deterministic function of the label list: it depends on the process's
string-hash seed. -/
theorem claim3_order_dependence :
    List.Perm ["cities", "ruins", "locations"] ["ruins", "cities", "locations"] ∧
    pickSub ((SUBCATEGORY_RULES.lookup "2_Locations").getD []) ["cities", "ruins", "locations"] =
      some "Cities" ∧
    pickSub ((SUBCATEGORY_RULES.lookup "2_Locations").getD []) ["ruins", "cities", "locations"] =
      some "Ruins" := by
  decide

/-- C8: classifying an empty label list (with no infobox) returns the
default fallback category, no subfolder, and an empty resolved label
set. -/
theorem claim8_empty_input :
    classify_file "" [] = ("9_Miscellaneous", none, []) := by decide

/-- C9: classifying the unknown label "unknown" returns the default
fallback category with no subfolder and the label set unchanged, and
ancestor inference on {"unknown"} adds nothing and reports `false`. -/
theorem claim9_unknown_label :
    classify_file "" ["unknown"] = ("9_Miscellaneous", none, ["unknown"]) ∧
    add_parent_tags_for_subcategories ["unknown"] = (["unknown"], false) := by
  decide

/-- C6: single-level closure.  For every label `t` in the set returned by
ancestor inference that is a subcategory-rule key of some folder, some
category label resolving to that folder (the parent segment of `t`'s
path) is also in the returned set. -/
theorem claim6_parent_closure :
    ∀ (tags : List String) (t folder : String) (subs : List (String × String)),
      SUBCATEGORY_RULES.lookup folder = some subs →
      (subs.lookup t).isSome = true →
      t ∈ (add_parent_tags_for_subcategories tags).1 →
      ∃ k, CATEGORY_RULES.lookup k = some folder ∧
        k ∈ (add_parent_tags_for_subcategories tags).1 := by
  intro tags t folder subs hsub hts htm
  obtain ⟨sv, hsv⟩ := Option.isSome_iff_exists.mp hts
  have hconf : ∀ pf ∈ SUBCATEGORY_RULES, ∀ ts ∈ pf.2,
      (subcatToParent.lookup ts.1).isSome = true ∧
      CATEGORY_RULES.lookup ((subcatToParent.lookup ts.1).getD "") = some pf.1 := by
    decide
  have h2 := hconf _ (lookup_mem hsub) _ (lookup_mem hsv)
  obtain ⟨p, hp⟩ := Option.isSome_iff_exists.mp h2.1
  have hcat := h2.2
  rw [hp] at hcat
  simp only [Option.getD_some] at hcat
  exact ⟨p, hcat, add_parent_closed htm hp⟩

/-- Closed witness for C6 at the label "nobility", a subcategory key of
the folder `3_Factions`. -/
theorem claim6_witness :
    ∃ k, CATEGORY_RULES.lookup k = some "3_Factions" ∧
      k ∈ (add_parent_tags_for_subcategories ["nobility"]).1 :=
  claim6_parent_closure ["nobility"] "nobility" "3_Factions" [("nobility", "Nobility")]
    (by decide) (by decide) (by decide)

/-- C7: ancestor inference reaches a fixed point after one step: running
it again on the returned list gives back the same list with the
added-flag `false`. -/
theorem claim7_inference_fixed_point (tags : List String) :
    add_parent_tags_for_subcategories ((add_parent_tags_for_subcategories tags).1) =
      ((add_parent_tags_for_subcategories tags).1, false) :=
  add_parent_of_closed (add_parent_nodup tags)
    (fun _ hx => add_parent_lower hx)
    (fun _ ht _ hp => add_parent_closed ht hp)

/-- C10: when the infobox value (lowercased and trimmed) maps to a
configured category key, `classify_file` uses that key's folder as the
main folder regardless of the tags, and the key is in the resolved label
set. -/
theorem claim10_infobox_precedence :
    ∀ (infobox : String) (tags : List String) (key : String),
      INFBOX_TO_CATEGORY_KEY.lookup (stripPy (lowerPy infobox)) = some key →
      ∃ folder, CATEGORY_RULES.lookup key = some folder ∧
        (classify_file infobox tags).1 = folder ∧
        key ∈ (classify_file infobox tags).2.2 := by
  intro ib tags key hkey
  have hconf : ∀ pr ∈ INFBOX_TO_CATEGORY_KEY,
      lowerPy pr.2 = pr.2 ∧ pr.2.isEmpty = false ∧
      (CATEGORY_RULES.lookup pr.2).isSome = true ∧
      ((CATEGORY_RULES.lookup pr.2).getD "").isEmpty = false := by
    decide
  obtain ⟨hlow, hne, hsome, hfne⟩ := hconf _ (lookup_mem hkey)
  obtain ⟨folder, hf⟩ := Option.isSome_iff_exists.mp hsome
  rw [hf] at hfne
  simp only [Option.getD_some] at hfne
  refine ⟨folder, hf, ?_, ?_⟩
  · simp only [classify_file, hkey, Option.getD_some, hne, hf, Bool.not_false, Bool.true_and,
      Bool.false_eq_true, if_false, hfne, pyOr]
  · simp only [classify_file, hkey, Option.getD_some, hne, Bool.not_false, Bool.true_and]
    by_cases hc : (consolidate_tags (tags.map lowerPy)).contains key = true
    · rw [hc]
      simp only [Bool.not_true, Bool.false_eq_true, if_false]
      exact mem_add_parent_of_mem (by simpa using hc) hlow
    · rw [Bool.not_eq_true] at hc
      rw [hc]
      simp only [Bool.not_false, if_true]
      exact mem_add_parent_of_mem (List.mem_append.mpr (Or.inr (List.mem_singleton.mpr rfl))) hlow

/-- C4: tag consolidation is idempotent: consolidating an already
consolidated list returns it unchanged. -/
theorem claim4_consolidate_idem (L : List String) :
    consolidate_tags (consolidate_tags L) = consolidate_tags L := by
  have hfin : ∀ t ∈ finalOf L, NormalTag t ∧ replTag t = t := fun t ht => mem_finalOf ht
  have hOperm : List.Perm (consolidate_tags L) ((finalOf L).map (restore_formatting L)) :=
    pySort_perm _
  have hmapO : List.Perm ((consolidate_tags L).map normTag) (finalOf L) := by
    have h1 := hOperm.map normTag
    rw [List.map_map] at h1
    have h2 : (finalOf L).map (normTag ∘ restore_formatting L) = (finalOf L).map id :=
      List.map_congr_left fun t ht => normTag_restore (hfin t ht).1
    rw [h2, List.map_id] at h1
    exact h1
  have hFnodup : (finalOf L).Nodup := by
    have h3 : (((normalizedOf L).map replTag).dedup).Nodup := List.nodup_dedup _
    exact List.Nodup.filter _ h3
  have hONodup : ((consolidate_tags L).map normTag).Nodup := (hmapO.nodup_iff).mpr hFnodup
  have hnormO : normalizedOf (consolidate_tags L) = (consolidate_tags L).map normTag := by
    show ((consolidate_tags L).map normTag).dedup = _
    exact List.dedup_eq_self.mpr hONodup
  have hmemF : ∀ t ∈ (consolidate_tags L).map normTag, t ∈ finalOf L :=
    fun t ht => (hmapO.mem_iff).mp ht
  have hconsO : consolidatedOf (consolidate_tags L) = (consolidate_tags L).map normTag := by
    show ((normalizedOf (consolidate_tags L)).map replTag).dedup = _
    rw [hnormO]
    have h3 : ((consolidate_tags L).map normTag).map replTag =
        ((consolidate_tags L).map normTag).map id :=
      List.map_congr_left fun t ht => (hfin t (hmemF t ht)).2
    rw [h3, List.map_id]
    exact List.dedup_eq_self.mpr hONodup
  have hreplO : replacementsOf (consolidate_tags L) = [] := by
    show (normalizedOf (consolidate_tags L)).filter (fun t => !(replTag t == t)) = []
    rw [hnormO]
    apply List.filter_eq_nil_iff.mpr
    intro t ht
    have h4 := (hfin t (hmemF t ht)).2
    simp [h4]
  have hfinO : finalOf (consolidate_tags L) = (consolidate_tags L).map normTag := by
    show (consolidatedOf (consolidate_tags L)).filter
        (fun t => !((replacementsOf (consolidate_tags L)).contains t)) = _
    rw [hconsO, hreplO, filter_contains_nil]
  have hrest : ∀ t ∈ (consolidate_tags L).map normTag,
      restore_formatting (consolidate_tags L) t = restore_formatting L t := by
    intro t ht
    have htF := hmemF t ht
    have hN := (hfin t htF).1
    have haO : restore_formatting L t ∈ consolidate_tags L :=
      (hOperm.mem_iff).mpr (List.mem_map.mpr ⟨t, htF, rfl⟩)
    rcases hf : (consolidate_tags L).find? (fun o => u2s (lowerPy o) == t) with _ | x
    · exfalso
      have hnone := List.find?_eq_none.mp hf _ haO
      apply hnone
      show (u2s (lowerPy (restore_formatting L t)) == t) = true
      rw [u2s_lower_restore hN]
      exact beq_self_eq_true t
    · have hpx0 := List.find?_some hf
      have hpx : (u2s (lowerPy x) == t) = true := hpx0
      have hxO := List.mem_of_find?_eq_some hf
      have hxmap : x ∈ (finalOf L).map (restore_formatting L) := (hOperm.mem_iff).mp hxO
      obtain ⟨u, hu, hxu⟩ := List.mem_map.mp hxmap
      have hxu2 : u2s (lowerPy x) = u := by
        rw [← hxu]
        exact u2s_lower_restore (hfin u hu).1
      have hxt : u2s (lowerPy x) = t := eq_of_beq hpx
      rw [hxu2] at hxt
      subst hxt
      rw [restore_eq_of_find_some hf, ← hxu, lowerPy_restore hN]
  show pySort ((finalOf (consolidate_tags L)).map (restore_formatting (consolidate_tags L))) =
    consolidate_tags L
  rw [hfinO, List.map_congr_left hrest]
  have hp2 : List.Perm (((consolidate_tags L).map normTag).map (restore_formatting L))
      ((finalOf L).map (restore_formatting L)) := hmapO.map _
  rw [pySort_eq_of_perm hp2]
  rfl

/-- C5: a synonym source never survives consolidation: if a normalized
input tag has a synonym-table entry pointing elsewhere, then it does not
occur in the output, and no output tag even normalizes to it. -/
theorem claim5_sources_removed :
    ∀ (tags : List String) (s r : String),
      s ∈ tags.map normTag →
      TAG_CONSOLIDATION.lookup s = some r →
      r ≠ s →
      s ∉ consolidate_tags tags ∧ ∀ o ∈ consolidate_tags tags, normTag o ≠ s := by
  intro tags s r hs hl hr
  have hsN : s ∈ normalizedOf tags := List.mem_dedup.mpr hs
  have hreplS : replTag s = r := by
    unfold replTag
    rw [hl]
    rfl
  have hsR : s ∈ replacementsOf tags := mem_replacementsOf hsN (by rw [hreplS]; exact hr)
  have hpart2 : ∀ o ∈ consolidate_tags tags, normTag o ≠ s := by
    intro o ho habs
    have homap : o ∈ (finalOf tags).map (restore_formatting tags) :=
      ((pySort_perm _).mem_iff).mp ho
    obtain ⟨u, hu, rfl⟩ := List.mem_map.mp homap
    have hnu : normTag (restore_formatting tags u) = u := normTag_restore (mem_finalOf hu).1
    rw [hnu] at habs
    subst habs
    exact not_mem_replacements_of_finalOf hu hsR
  refine ⟨?_, hpart2⟩
  intro hsO
  exact hpart2 s hsO (mem_normalizedOf_normal hsN)

/-- Closed witness for C5: consolidating {"wars","conflicts"}, where
"wars" is a synonym source that is also present independently, leaves no
trace of "wars" in the output. -/
theorem claim5_witness :
    "wars" ∉ consolidate_tags ["wars", "conflicts"] ∧
      ∀ o ∈ consolidate_tags ["wars", "conflicts"], normTag o ≠ "wars" :=
  claim5_sources_removed ["wars", "conflicts"] "wars" "conflicts"
    (by decide) (by decide) (by decide)

/-- Closed witness for C10: an infobox value "Character" forces the
`1_People` folder and the "characters" label. -/
theorem claim10_witness :
    ∃ folder, CATEGORY_RULES.lookup "characters" = some folder ∧
      (classify_file "Character" ["ruins"]).1 = folder ∧
      "characters" ∈ (classify_file "Character" ["ruins"]).2.2 :=
  claim10_infobox_precedence "Character" ["ruins"] "characters" (by decide)

end Organize
